import Mathlib

/-!
Verification of the repository/data-access layer of the gin-crud-api service:
the in-memory, EntGo-backed and PostgreSQL-backed repository implementations,
the department cascade-delete handler, the employee create handler and the
email validator, modelled shallowly in Lean.

Conventions of the embedding:
* Go error values are modelled by `RepoErr`; the repository code has a single
  sentinel `models.ErrNotFound` / `database.ErrNotFound` (`RepoErr.notFound`);
  every other error the code produces is a `fmt.Errorf`-wrapped message,
  modelled as `RepoErr.invalidInput` (identifier-parse failures) or
  `RepoErr.store` (wrapped store/driver errors).
* A Go slice is modelled by `GoSlice α := Option (List α)`: a nil slice
  (`var xs []T`) is `none`, a non-nil slice is `some` of its elements;
  `append` on a nil slice yields a non-nil slice, as in Go.
* Go maps (`map[string]*T` keyed by the record id) are modelled by lists of
  records; insertion replaces any binding with the same id, deletion filters
  it out.  Map iteration order is unspecified in Go; the model iterates in
  list order.
-/

deriving instance DecidableEq for Except

inductive RepoErr where
  | notFound
  | invalidInput (msg : String)
  | store (msg : String)
deriving DecidableEq

/-- Domain model `models.Department` (internal/models/models.go). -/
structure Department where
  id : String
  name : String
deriving DecidableEq

/-- Domain model `models.Employee` (internal/models/models.go). -/
structure Employee where
  id : String
  name : String
  email : String
  departmentID : String
deriving DecidableEq

/-- A Go slice value: `none` is a nil slice, `some l` a non-nil backing array
holding `l`.  The distinction matters because a nil slice JSON-serializes to
`null` while an empty non-nil slice serializes to `[]`. -/
abbrev GoSlice (α : Type) := Option (List α)

/-- The elements of a Go slice (`len`/range semantics ignore nil-ness). -/
def GoSlice.toList {α : Type} : GoSlice α → List α
  | none => []
  | some l => l

/-- Go `append(s, a)`: appending to a nil slice allocates, so the result is
always non-nil. -/
def GoSlice.push {α : Type} (s : GoSlice α) (a : α) : GoSlice α :=
  some (GoSlice.toList s ++ [a])

/-- Go `var xs []T`: the nil slice. -/
def GoSlice.goNil {α : Type} : GoSlice α := none

/-- Go `make([]T, 0, n)` filled with the given elements: a non-nil slice. -/
def GoSlice.goMake {α : Type} (l : List α) : GoSlice α := some l

/-! ## In-memory repositories

Translated from `internal/database/legacy/memory_repository.go`.  The
`InMemoryStore` holds one map per entity; the mutexes only guard map access
and are invisible to the sequential model. -/

structure InMemoryStore where
  departments : List Department
  employees : List Employee
deriving DecidableEq

/-- `InMemoryDepartmentRepo.Save`: `r.store.departments[dept.ID] = dept;
return nil`.  Unconditional map insert, never an error. -/
def memDeptSave (s : InMemoryStore) (dept : Department) :
    InMemoryStore × Option RepoErr :=
  ({ s with departments :=
      s.departments.filter (fun x => !(x.id == dept.id)) ++ [dept] }, none)

/-- `InMemoryDepartmentRepo.FindByID`: map lookup, `ErrNotFound` if absent. -/
def memDeptFindByID (s : InMemoryStore) (id : String) :
    Except RepoErr Department :=
  match s.departments.find? (fun x => x.id == id) with
  | some dept => .ok dept
  | none => .error .notFound

/-- `InMemoryDepartmentRepo.FindAll`: `result := make([]*D, 0, len(m))` then
append every map entry. -/
def memDeptFindAll (s : InMemoryStore) : Except RepoErr (GoSlice Department) :=
  .ok (s.departments.foldl GoSlice.push (GoSlice.goMake []))

/-- `InMemoryDepartmentRepo.Update`: `ErrNotFound` if the id is absent,
otherwise replace the binding. -/
def memDeptUpdate (s : InMemoryStore) (dept : Department) :
    InMemoryStore × Option RepoErr :=
  if s.departments.any (fun x => x.id == dept.id) then
    ({ s with departments :=
        s.departments.filter (fun x => !(x.id == dept.id)) ++ [dept] }, none)
  else (s, some .notFound)

/-- `InMemoryDepartmentRepo.Delete`: `ErrNotFound` if absent, otherwise
`delete(map, id)`.  Touches only the department map. -/
def memDeptDelete (s : InMemoryStore) (id : String) :
    InMemoryStore × Option RepoErr :=
  if s.departments.any (fun x => x.id == id) then
    ({ s with departments := s.departments.filter (fun x => !(x.id == id)) }, none)
  else (s, some .notFound)

/-- `InMemoryEmployeeRepo.Save`: unconditional map insert, never an error. -/
def memEmpSave (s : InMemoryStore) (emp : Employee) :
    InMemoryStore × Option RepoErr :=
  ({ s with employees :=
      s.employees.filter (fun x => !(x.id == emp.id)) ++ [emp] }, none)

/-- `InMemoryEmployeeRepo.FindByID`. -/
def memEmpFindByID (s : InMemoryStore) (id : String) : Except RepoErr Employee :=
  match s.employees.find? (fun x => x.id == id) with
  | some emp => .ok emp
  | none => .error .notFound

/-- `InMemoryEmployeeRepo.FindAll`: `make` + append loop, non-nil result. -/
def memEmpFindAll (s : InMemoryStore) : Except RepoErr (GoSlice Employee) :=
  .ok (s.employees.foldl GoSlice.push (GoSlice.goMake []))

/-- `InMemoryEmployeeRepo.Update`. -/
def memEmpUpdate (s : InMemoryStore) (emp : Employee) :
    InMemoryStore × Option RepoErr :=
  if s.employees.any (fun x => x.id == emp.id) then
    ({ s with employees :=
        s.employees.filter (fun x => !(x.id == emp.id)) ++ [emp] }, none)
  else (s, some .notFound)

/-- `InMemoryEmployeeRepo.Delete`. -/
def memEmpDelete (s : InMemoryStore) (id : String) :
    InMemoryStore × Option RepoErr :=
  if s.employees.any (fun x => x.id == id) then
    ({ s with employees := s.employees.filter (fun x => !(x.id == id)) }, none)
  else (s, some .notFound)

/-- `InMemoryEmployeeRepo.FindByDepartmentID`: `var result []*Employee`
(a nil slice!) followed by a conditional append loop over the map. -/
def memEmpFindByDepartmentID (s : InMemoryStore) (deptID : String) :
    Except RepoErr (GoSlice Employee) :=
  .ok (s.employees.foldl
    (fun acc e => if e.departmentID == deptID then GoSlice.push acc e else acc)
    GoSlice.goNil)

/-! ## Handlers

The handlers hold repository interfaces by dependency injection
(`database.DepartmentRepository` / `database.EmployeeRepository`); the
abstraction is mirrored by `RepoOps`, a record of the operations the
modelled handlers use, over an arbitrary state type. -/

structure RepoOps (σ : Type) where
  deptFindByID : σ → String → Except RepoErr Department
  deptDelete : σ → String → σ × Option RepoErr
  empFindByDepartmentID : σ → String → Except RepoErr (GoSlice Employee)
  empDelete : σ → String → σ × Option RepoErr
  empSave : σ → Employee → σ × Option RepoErr

/-- The observable outcome of a handler: the gin responses used by the
modelled handlers. -/
inductive HttpResponse where
  | jsonError (status : Nat) (msg : String)
  | createdEmployee (emp : Employee)
  | noContent
deriving DecidableEq

/-- Step 3+4 of the department `Handler.Delete` (part of the cascade): delete
each enumerated employee, continuing past per-row errors (the Go loop does
`if err != nil { continue }`), then delete the department itself. -/
def cascadeThenDeleteParent {σ : Type} (R : RepoOps σ) (s : σ) (id : String)
    (emps : List Employee) : σ × HttpResponse :=
  let s2 := emps.foldl (fun st emp => (R.empDelete st emp.id).1) s
  match R.deptDelete s2 id with
  | (s3, some _) => (s3, .jsonError 500 "Failed to delete department")
  | (s3, none) => (s3, .noContent)

/-- Department `Handler.Delete` (cascade delete), translated from
src/unnamed/part_013 lines 107-139: verify the department exists (404 if
not), enumerate its employees (500 on a non-NotFound enumeration error),
best-effort delete each employee, then delete the department. -/
def departmentHandlerDelete {σ : Type} (R : RepoOps σ) (s : σ) (id : String) :
    σ × HttpResponse :=
  match R.deptFindByID s id with
  | .error _ => (s, .jsonError 404 "Department not found")
  | .ok _ =>
    match R.empFindByDepartmentID s id with
    | .error e =>
      if e ≠ RepoErr.notFound then
        (s, .jsonError 500 "Failed to check department employees")
      else cascadeThenDeleteParent R s id []
    | .ok employees => cascadeThenDeleteParent R s id (GoSlice.toList employees)

/-- Request DTO `models.CreateEmployeeRequest` after JSON binding. -/
structure CreateEmployeeRequest where
  name : String
  email : String
  departmentID : String
deriving DecidableEq

/-- Employee `Handler.Create`, translated from internal/employee/handler.go
lines 23-51: the referential gate checks the department exists before any
save; `newID` stands for the freshly generated `uuid.NewString()`. -/
def employeeHandlerCreate {σ : Type} (R : RepoOps σ) (s : σ)
    (req : CreateEmployeeRequest) (newID : String) : σ × HttpResponse :=
  match R.deptFindByID s req.departmentID with
  | .error _ => (s, .jsonError 400 "Invalid department ID")
  | .ok _ =>
    let emp : Employee :=
      { id := newID, name := req.name, email := req.email,
        departmentID := req.departmentID }
    match R.empSave s emp with
    | (s2, some _) => (s2, .jsonError 500 "Failed to create employee")
    | (s2, none) => (s2, .createdEmployee emp)

/-- The in-memory repositories assembled into the handler's interface, as
wired by the legacy REST entry point. -/
def memRepoOps : RepoOps InMemoryStore where
  deptFindByID := memDeptFindByID
  deptDelete := memDeptDelete
  empFindByDepartmentID := memEmpFindByDepartmentID
  empDelete := memEmpDelete
  empSave := memEmpSave

/-- The in-memory repositories with a fault model on the employee `Delete`:
deleting an id in `failSet` fails with a wrapped store error and leaves the
store unchanged.  This makes the handler's per-row "continue on error"
policy observable. -/
def faultyRepoOps (failSet : List String) : RepoOps InMemoryStore :=
  { memRepoOps with
    empDelete := fun s id =>
      if failSet.contains id then (s, some (.store "employee delete failed"))
      else memEmpDelete s id }

/-- The cascade-delete orchestrator entry point of the spec is the department
delete handler running over the in-memory repositories. -/
def cascadeDeleteDepartment (s : InMemoryStore) (id : String) :
    InMemoryStore × HttpResponse :=
  departmentHandlerDelete memRepoOps s id

/-! ## Identifier format

Record ids are rendered UUIDs (`uuid.NewString()`): the canonical 36-char
lowercase hyphenated form.  The EntGo and PostgreSQL repositories parse the
string id before every operation (`uuid.Parse`); the model accepts the
canonical rendered form, on which parse-then-render is the identity. -/

def isHexDigitChar (c : Char) : Bool :=
  c.isDigit || ('a' ≤ c && c ≤ 'f')

/-- Canonical rendered UUID: 36 chars, hyphens at positions 8, 13, 18, 23,
lowercase hex digits elsewhere. -/
def wellFormedUUID (s : String) : Bool :=
  s.data.length == 36 &&
  (List.range 36).all fun i =>
    if i == 8 || i == 13 || i == 18 || i == 23 then s.data[i]? == some '-'
    else
      match s.data[i]? with
      | some c => isHexDigitChar c
      | none => false

/-- `uuid.Parse` followed by `.String()`, restricted to canonical input:
the identity on well-formed ids, failure otherwise. -/
def uuidParse (s : String) : Option String :=
  if wellFormedUUID s then some s else none

/-! ## EntGo repositories

Translated from `internal/database/ent_department_repo.go`,
`internal/database/ent_employee_repo.go` and the schema constraints of
`internal/ent/schema/{department,employee}.go`: ids are unique primary keys,
`employee.email` is unique, and `employee.department_id` is a required
foreign key to `departments` (no cascade annotation, so the store rejects
deleting a department that still has employees).  A constraint violation
surfaces as the wrapped error the repository returns
(`fmt.Errorf("failed to ...: %w", err)`), modelled as `RepoErr.store`. -/

structure EntStore where
  departments : List Department
  employees : List Employee
deriving DecidableEq

/-- `EntDepartmentRepo.Save`: parse the id, then `Create().SetID().SetName()`
- an insert, which the store rejects on a duplicate primary key. -/
def entDeptSave (s : EntStore) (dept : Department) : EntStore × Option RepoErr :=
  match uuidParse dept.id with
  | none => (s, some (.invalidInput "invalid department ID"))
  | some uid =>
    if s.departments.any (fun r => r.id == uid) then
      (s, some (.store "failed to save department"))
    else
      ({ s with departments := s.departments ++ [{ id := uid, name := dept.name }] },
       none)

/-- `EntDepartmentRepo.FindByID`: parse the id, `Get`, map ent's not-found
onto `models.ErrNotFound`; the returned record re-renders the stored UUID. -/
def entDeptFindByID (s : EntStore) (id : String) : Except RepoErr Department :=
  match uuidParse id with
  | none => .error (.invalidInput "invalid department ID")
  | some uid =>
    match s.departments.find? (fun r => r.id == uid) with
    | some r => .ok { id := r.id, name := r.name }
    | none => .error .notFound

/-- `EntDepartmentRepo.FindAll`: `client.Department.Query().All(ctx)` - no
`Order` clause, so rows come back in table order - then
`make([]*models.Department, len(entDepts))` (a non-nil slice). -/
def entDeptFindAll (s : EntStore) : Except RepoErr (GoSlice Department) :=
  .ok (GoSlice.goMake (s.departments.map (fun r => { id := r.id, name := r.name })))

/-- `EntDepartmentRepo.Delete`: parse the id, `DeleteOneID`; ent's not-found
maps to `models.ErrNotFound`; the store rejects the delete while employees
still reference the department (required FK, no cascade). -/
def entDeptDelete (s : EntStore) (id : String) : EntStore × Option RepoErr :=
  match uuidParse id with
  | none => (s, some (.invalidInput "invalid department ID"))
  | some uid =>
    if s.departments.any (fun r => r.id == uid) then
      if s.employees.any (fun e => e.departmentID == uid) then
        (s, some (.store "failed to delete department"))
      else
        ({ s with departments := s.departments.filter (fun r => !(r.id == uid)) },
         none)
    else (s, some .notFound)

/-- `EntEmployeeRepo.Save`: parse both ids, then an insert which the store
rejects on a duplicate primary key, a duplicate email (unique index), or a
dangling `department_id` (required foreign key). -/
def entEmpSave (s : EntStore) (emp : Employee) : EntStore × Option RepoErr :=
  match uuidParse emp.id with
  | none => (s, some (.invalidInput "invalid employee ID"))
  | some eid =>
    match uuidParse emp.departmentID with
    | none => (s, some (.invalidInput "invalid department ID"))
    | some did =>
      if s.employees.any (fun r => r.id == eid) then
        (s, some (.store "failed to save employee"))
      else if s.employees.any (fun r => r.email == emp.email) then
        (s, some (.store "failed to save employee"))
      else if !(s.departments.any (fun r => r.id == did)) then
        (s, some (.store "failed to save employee"))
      else
        ({ s with employees :=
            s.employees ++ [{ id := eid, name := emp.name, email := emp.email,
                              departmentID := did }] }, none)

/-- `EntEmployeeRepo.FindByDepartmentID`:
`Query().Where(employee.DepartmentID(uid)).All(ctx)` - no ordering - then
`make(...)` (non-nil). -/
def entEmpFindByDepartmentID (s : EntStore) (deptID : String) :
    Except RepoErr (GoSlice Employee) :=
  match uuidParse deptID with
  | none => .error (.invalidInput "invalid department ID")
  | some uid =>
    .ok (GoSlice.goMake (s.employees.filter (fun e => e.departmentID == uid)))

/-! ## Byte-wise string order

`ORDER BY name` in the PostgreSQL queries, modelled as lexicographic order
on the characters of the name. -/

def charListLe : List Char → List Char → Bool
  | [], _ => true
  | _ :: _, [] => false
  | a :: as, b :: bs => if a = b then charListLe as bs else decide (a < b)

def strLe (a b : String) : Bool := charListLe a.data b.data

/-! ## PostgreSQL repositories

Translated from `internal/database/legacy/postgres_repository.go` together
with the store schema `migrations` DDL (src/unnamed/part_000): the
`employees` table's `fk_department` constraint is declared
`ON DELETE CASCADE`, so deleting a department row makes the database remove
every employee row referencing it. -/

structure PgStore where
  departments : List Department
  employees : List Employee
deriving DecidableEq

/-- `PostgresDepartmentRepo.FindAll`:
`SELECT id, name FROM departments ORDER BY name`, scanned into
`var departments []*model.Department` by appends, then the nil slice is
patched to `make([]*model.Department, 0)`. -/
def pgDeptFindAll (s : PgStore) : Except RepoErr (GoSlice Department) :=
  let rows := List.insertionSort (fun a b => strLe a.name b.name = true) s.departments
  let out := rows.foldl GoSlice.push GoSlice.goNil
  .ok (match out with
       | none => GoSlice.goMake []
       | some l => some l)

/-- `PostgresDepartmentRepo.FindByID`. -/
def pgDeptFindByID (s : PgStore) (id : String) : Except RepoErr Department :=
  match s.departments.find? (fun d => d.id == id) with
  | some d => .ok d
  | none => .error .notFound

/-- `PostgresDepartmentRepo.Delete`: `DELETE FROM departments WHERE id = $1`;
`RowsAffected() == 0` maps to `ErrNotFound`.  The store's
`ON DELETE CASCADE` foreign key also removes every referencing employee row
(the repository comments: "CASCADE DELETE is handled by database foreign key
constraint"). -/
def pgDeptDelete (s : PgStore) (id : String) : PgStore × Option RepoErr :=
  if s.departments.any (fun d => d.id == id) then
    ({ departments := s.departments.filter (fun d => !(d.id == id)),
       employees := s.employees.filter (fun e => !(e.departmentID == id)) },
     none)
  else (s, some .notFound)

/-- `PostgresEmployeeRepo.FindByDepartmentID`:
`SELECT ... WHERE department_id = $1 ORDER BY name`, appended into a nil
slice, then the nil slice is patched to an empty non-nil slice. -/
def pgEmpFindByDepartmentID (s : PgStore) (deptID : String) :
    Except RepoErr (GoSlice Employee) :=
  let rows := List.insertionSort (fun a b => strLe a.name b.name = true)
    (s.employees.filter (fun e => e.departmentID == deptID))
  let out := rows.foldl GoSlice.push GoSlice.goNil
  .ok (match out with
       | none => GoSlice.goMake []
       | some l => some l)

/-! ## Email validation

Translated from src/unnamed/part_012: `isValidEmail` matches the anchored
regular expression
`^[a-zA-Z0-9._%+\-]+@[a-zA-Z0-9.\-]+\.[a-zA-Z]{2,}$`.
The model is the regular expression's language: there is a split of the
string into a non-empty local part over the local character class, an `@`,
a non-empty domain part over the domain character class, a dot and a final
run of at least two letters. -/

def localChar (c : Char) : Bool :=
  c.isAlphanum || c == '.' || c == '_' || c == '%' || c == '+' || c == '-'

def domainChar (c : Char) : Bool :=
  c.isAlphanum || c == '.' || c == '-'

/-- The part of the pattern after the `@`: `[a-zA-Z0-9.\-]+\.[a-zA-Z]{2,}$`,
as a scan over the position of the dot used by the match. -/
def domainPartOk (r : List Char) : Bool :=
  (List.range r.length).any fun j =>
    r[j]? == some '.' && decide (0 < j) && (r.take j).all domainChar &&
      (decide (2 ≤ (r.drop (j + 1)).length) && (r.drop (j + 1)).all Char.isAlpha)

/-- `isValidEmail` (src/unnamed/part_012 lines 9-13), as a scan over the
position of the `@` used by the match. -/
def isValidEmail (s : String) : Bool :=
  let cs := s.data
  (List.range cs.length).any fun i =>
    cs[i]? == some '@' && decide (0 < i) && (cs.take i).all localChar &&
      domainPartOk (cs.drop (i + 1))

/-! ## Concrete stores used by witnesses and counterexamples -/

/-- In-memory store with two departments and three employees. -/
def wStore : InMemoryStore :=
  { departments := [⟨"d1", "Engineering"⟩, ⟨"d2", "Sales"⟩],
    employees :=
      [⟨"e1", "Alice", "alice@example.com", "d1"⟩,
       ⟨"e2", "Bob", "bob@example.com", "d1"⟩,
       ⟨"e3", "Carol", "carol@example.com", "d2"⟩] }

/-- Concrete base store holding one department and no employees. -/
def entBase : EntStore :=
  { departments := [⟨"11111111-1111-1111-1111-111111111111", "Engineering"⟩],
    employees := [] }

/-- Ent store reached by saving "Sales" and then "Engineering". -/
def entTwoDepts : EntStore :=
  (entDeptSave
    (entDeptSave { departments := [], employees := [] }
      ⟨"11111111-1111-1111-1111-111111111111", "Sales"⟩).1
    ⟨"22222222-2222-2222-2222-222222222222", "Engineering"⟩).1

/-- Ent store already holding a department with id 4444...; used to refute
the unconditional round-trip. -/
def entOneDept : EntStore :=
  { departments := [⟨"44444444-4444-4444-4444-444444444444", "Alpha"⟩],
    employees := [] }

/-- Postgres store with one department and one employee referencing it. -/
def pgOneDeptOneEmp : PgStore :=
  { departments := [⟨"d1", "Engineering"⟩],
    employees := [⟨"e1", "Alice", "alice@example.com", "d1"⟩] }

/-! ## Helper lemmas -/

theorem goslice_toList_goMake {α : Type} (l : List α) :
    GoSlice.toList (GoSlice.goMake l) = l := rfl

theorem goslice_toList_push {α : Type} (g : GoSlice α) (a : α) :
    GoSlice.toList (GoSlice.push g a) = GoSlice.toList g ++ [a] := rfl

/-- A slice built by a loop of appends: nil stays nil only when the loop body
never runs. -/
theorem goslice_foldl_push {α : Type} (L : List α) (g : GoSlice α) :
    L.foldl GoSlice.push g =
      if L.isEmpty then g else some (GoSlice.toList g ++ L) := by
  induction L generalizing g with
  | nil => simp
  | cons a L ih =>
    simp only [List.foldl_cons, ih, List.isEmpty_cons]
    cases hL : L.isEmpty
    · simp [GoSlice.push, GoSlice.toList]
    · have : L = [] := List.isEmpty_iff.mp hL
      subst this
      simp [GoSlice.push, GoSlice.toList]

theorem goslice_toList_foldl_push {α : Type} (L : List α) (g : GoSlice α) :
    GoSlice.toList (L.foldl GoSlice.push g) = GoSlice.toList g ++ L := by
  rw [goslice_foldl_push]
  cases hL : L.isEmpty
  · simp [GoSlice.toList]
  · have : L = [] := List.isEmpty_iff.mp hL
    subst this
    simp

/-- A conditional-append loop is an append loop over the filtered list. -/
theorem foldl_push_if_filter {α : Type} (p : α → Bool) (L : List α) (g : GoSlice α) :
    L.foldl (fun acc e => if p e then GoSlice.push acc e else acc) g =
      (L.filter p).foldl GoSlice.push g := by
  induction L generalizing g with
  | nil => rfl
  | cons a L ih =>
    simp only [List.foldl_cons, List.filter_cons]
    cases hp : p a
    · simp [ih]
    · simp [ih]

/-- `InMemoryEmployeeRepo.FindByDepartmentID` returns exactly the employees
of the department (as the element list of the returned slice). -/
theorem memEmpFindByDepartmentID_toList (s : InMemoryStore) (deptID : String) :
    memEmpFindByDepartmentID s deptID =
      .ok ((s.employees.filter (fun e => e.departmentID == deptID)).foldl
            GoSlice.push GoSlice.goNil) := by
  unfold memEmpFindByDepartmentID
  exact congrArg Except.ok
    (foldl_push_if_filter (fun e => e.departmentID == deptID) s.employees GoSlice.goNil)

theorem faultyRepoOps_empDelete_state (F : List String) (s : InMemoryStore)
    (i : String) :
    ((faultyRepoOps F).empDelete s i).1 =
      { departments := s.departments,
        employees :=
          if F.contains i then s.employees
          else s.employees.filter (fun e => !(e.id == i)) } := by
  simp only [faultyRepoOps]
  cases hF : F.contains i
  · simp only [Bool.false_eq_true, if_false, memEmpDelete]
    cases hAny : s.employees.any (fun x => x.id == i)
    · have hall : ∀ e ∈ s.employees, (fun e => !(e.id == i)) e = true := by
        intro e he
        have h2 := List.any_eq_false.mp hAny e he
        simp only [Bool.not_eq_true] at h2 ⊢
        simp [h2]
      simp [List.filter_eq_self.mpr hall]
    · simp
  · simp

/-- The best-effort cascade loop over a list of employee ids: an id's row is
gone afterwards exactly when the id was enumerated and its delete did not
fail; per-row failures do not stop later deletes.  Departments are
untouched. -/
theorem cascade_foldl_state (F : List String) (ids : List String)
    (s : InMemoryStore) :
    ids.foldl (fun st i => ((faultyRepoOps F).empDelete st i).1) s =
      { departments := s.departments,
        employees := s.employees.filter
          (fun e => !(ids.contains e.id) || F.contains e.id) } := by
  induction ids generalizing s with
  | nil =>
    have hall : ∀ e ∈ s.employees,
        (fun e => !(([] : List String).contains e.id) || F.contains e.id) e = true := by
      intro e _
      simp [List.contains]
    rw [List.foldl_nil, List.filter_eq_self.mpr hall]
  | cons i ids ih =>
    rw [List.foldl_cons, ih, faultyRepoOps_empDelete_state]
    cases hF : F.contains i
    · simp only [Bool.false_eq_true, if_false]
      rw [List.filter_filter]
      apply congrArg (InMemoryStore.mk s.departments)
      apply List.filter_congr
      intro e _
      have hFmem : i ∉ F := by
        intro hm
        rw [show F.contains i = List.elem i F from rfl, List.elem_eq_mem] at hF
        simp [hm] at hF
      by_cases h1 : e.id = i <;> by_cases h2 : e.id ∈ ids <;>
        by_cases h3 : e.id ∈ F <;>
        simp_all [List.contains, List.elem_eq_mem, List.mem_cons]
    · simp only [if_true]
      apply congrArg (InMemoryStore.mk s.departments)
      apply List.filter_congr
      intro e _
      have hFmem : i ∈ F := by
        rw [show F.contains i = List.elem i F from rfl, List.elem_eq_mem] at hF
        exact of_decide_eq_true hF
      by_cases h1 : e.id = i <;> by_cases h2 : e.id ∈ ids <;>
        by_cases h3 : e.id ∈ F <;>
        simp_all [List.contains, List.elem_eq_mem, List.mem_cons]

theorem contains_map_id_filter (s : InMemoryStore) (d : String)
    (hids : (s.employees.map Employee.id).Nodup)
    (e : Employee) (he : e ∈ s.employees) :
    ((s.employees.filter (fun x => x.departmentID == d)).map Employee.id).contains e.id
      = (e.departmentID == d) := by
  rw [show ∀ (l : List String) (a : String), l.contains a = List.elem a l
        from fun _ _ => rfl, List.elem_eq_mem]
  by_cases hd : e.departmentID = d
  · have hmem : e.id ∈ (s.employees.filter (fun x => x.departmentID == d)).map Employee.id :=
      List.mem_map_of_mem Employee.id (List.mem_filter.mpr ⟨he, by simp [hd]⟩)
    simp [hmem, hd]
  · have hnmem : e.id ∉ (s.employees.filter (fun x => x.departmentID == d)).map Employee.id := by
      intro hm
      obtain ⟨e2, he2, hide⟩ := List.mem_map.mp hm
      obtain ⟨he2mem, he2dep⟩ := List.mem_filter.mp he2
      have : e2 = e := List.inj_on_of_nodup_map hids he2mem he hide
      subst this
      exact hd (by simpa using he2dep)
    simp [hnmem, hd]

theorem departmentHandlerDelete_found (F : List String) (s : InMemoryStore)
    (d : String) (dept : Department)
    (hids : (s.employees.map Employee.id).Nodup)
    (hfind : s.departments.find? (fun x => x.id == d) = some dept) :
    departmentHandlerDelete (faultyRepoOps F) s d =
      ({ departments := s.departments.filter (fun x => !(x.id == d)),
         employees := s.employees.filter
           (fun e => !(e.departmentID == d) || F.contains e.id) },
       HttpResponse.noContent) := by
  have hstep1 : departmentHandlerDelete (faultyRepoOps F) s d
      = cascadeThenDeleteParent (faultyRepoOps F) s d
          (s.employees.filter (fun e => e.departmentID == d)) := by
    unfold departmentHandlerDelete
    rw [show (faultyRepoOps F).deptFindByID = memDeptFindByID from rfl]
    unfold memDeptFindByID
    rw [hfind]
    rw [show (faultyRepoOps F).empFindByDepartmentID = memEmpFindByDepartmentID from rfl,
        memEmpFindByDepartmentID_toList, goslice_foldl_push]
    cases hne : (s.employees.filter (fun e => e.departmentID == d)).isEmpty
    · rfl
    · have hnil : s.employees.filter (fun e => e.departmentID == d) = [] :=
        List.isEmpty_iff.mp hne
      rw [hnil]
      rfl
  rw [hstep1]
  unfold cascadeThenDeleteParent
  rw [show (fun (st : InMemoryStore) (emp : Employee) =>
        ((faultyRepoOps F).empDelete st emp.id).1)
      = (fun st emp => ((fun st i => ((faultyRepoOps F).empDelete st i).1) st
          (Employee.id emp))) from rfl,
      ← List.foldl_map Employee.id (fun st i => ((faultyRepoOps F).empDelete st i).1),
      cascade_foldl_state]
  rw [show (faultyRepoOps F).deptDelete = memDeptDelete from rfl]
  unfold memDeptDelete
  have hp : (dept.id == d) = true := List.find?_some (p := fun x : Department => x.id == d) hfind
  have hany : s.departments.any (fun x => x.id == d) = true :=
    List.any_eq_true.mpr ⟨dept, List.mem_of_find?_eq_some hfind, hp⟩
  simp only [hany, if_true]
  simp
  apply List.filter_congr
  intro e he
  have h := contains_map_id_filter s d hids e he
  rw [show ((s.employees.filter (fun x => x.departmentID == d)).map Employee.id).contains e.id
        = List.elem e.id ((s.employees.filter (fun x => x.departmentID == d)).map Employee.id)
        from rfl, List.elem_eq_mem] at h
  rw [h]

theorem faultyRepoOps_nil_eq : faultyRepoOps [] = memRepoOps := rfl

/-! ## Claims -/

/-- C1: The department Delete handler first verifies the department id via
`DepartmentRepo.FindByID`; if absent it responds NotFound with no mutation of
either collection; otherwise it enumerates the dependents via
`EmployeeRepo.FindByDepartmentID`, deletes each dependent individually with
per-row failures (modelled by `failSet`) not aborting the batch - every
remaining employee delete is still attempted - and finally calls
`DepartmentRepo.Delete`.  The resulting state removes the department and
every dependent whose own delete did not fail, whatever other per-row
failures occurred. -/
theorem department_delete_cascade_contract (failSet : List String)
    (s : InMemoryStore) (d : String)
    (hids : (s.employees.map Employee.id).Nodup) :
    (s.departments.find? (fun x => x.id == d) = none →
      departmentHandlerDelete (faultyRepoOps failSet) s d
        = (s, .jsonError 404 "Department not found"))
    ∧ (∀ dept, s.departments.find? (fun x => x.id == d) = some dept →
        departmentHandlerDelete (faultyRepoOps failSet) s d
          = ({ departments := s.departments.filter (fun x => !(x.id == d)),
               employees := s.employees.filter
                 (fun e => !(e.departmentID == d) || failSet.contains e.id) },
             .noContent)) := by
  constructor
  · intro hnone
    unfold departmentHandlerDelete
    rw [show (faultyRepoOps failSet).deptFindByID = memDeptFindByID from rfl]
    unfold memDeptFindByID
    rw [hnone]
  · intro dept hfind
    exact departmentHandlerDelete_found failSet s d dept hids hfind

/-- Witness for C1 at a concrete store: employee e1's delete fails, yet e2's
delete is still performed, the department row is removed and the handler
answers 204. -/
theorem department_delete_cascade_contract_witness :
    departmentHandlerDelete (faultyRepoOps ["e1"]) wStore "d1"
      = ({ departments := [⟨"d2", "Sales"⟩],
           employees :=
             [⟨"e1", "Alice", "alice@example.com", "d1"⟩,
              ⟨"e3", "Carol", "carol@example.com", "d2"⟩] },
         HttpResponse.noContent) := by
  have h := (department_delete_cascade_contract ["e1"] wStore "d1" (by decide)).2
    ⟨"d1", "Engineering"⟩ (by decide)
  rw [h]
  decide

/-- C2: Cascade completeness - for an existing department, after
`cascadeDeleteDepartment` succeeds, `FindByDepartmentID` on the same id
returns an empty sequence and `FindByID` on the department fails NotFound. -/
theorem cascade_delete_completeness (s : InMemoryStore) (d : String)
    (dept : Department)
    (hids : (s.employees.map Employee.id).Nodup)
    (hfind : s.departments.find? (fun x => x.id == d) = some dept) :
    Except.map GoSlice.toList
        (memEmpFindByDepartmentID (cascadeDeleteDepartment s d).1 d)
      = Except.ok []
    ∧ memDeptFindByID (cascadeDeleteDepartment s d).1 d
      = .error RepoErr.notFound := by
  have hc : cascadeDeleteDepartment s d
      = departmentHandlerDelete (faultyRepoOps []) s d := by
    unfold cascadeDeleteDepartment
    rw [faultyRepoOps_nil_eq]
  rw [hc, departmentHandlerDelete_found [] s d dept hids hfind]
  constructor
  · rw [memEmpFindByDepartmentID_toList]
    have hnil : ((s.employees.filter
          (fun e => !(e.departmentID == d) || ([] : List String).contains e.id)).filter
            (fun e => e.departmentID == d)) = [] := by
      rw [List.filter_eq_nil_iff]
      intro e he
      have h2 := (List.mem_filter.mp he).2
      have h3 : (e.departmentID == d) = false := by
        cases hdep : e.departmentID == d
        · rfl
        · rw [hdep] at h2
          exact (Bool.false_ne_true h2).elim
      simp [h3]
    rw [hnil]
    rfl
  · unfold memDeptFindByID
    have hnone : (s.departments.filter (fun x => !(x.id == d))).find?
        (fun x => x.id == d) = none := by
      rw [List.find?_eq_none]
      intro x hx
      have h2 := (List.mem_filter.mp hx).2
      rw [Bool.not_eq_true'] at h2
      simp [h2]
    rw [hnone]

/-- Witness for C2 at a concrete store with two dependents. -/
theorem cascade_delete_completeness_witness :
    Except.map GoSlice.toList
        (memEmpFindByDepartmentID (cascadeDeleteDepartment wStore "d1").1 "d1")
      = Except.ok []
    ∧ memDeptFindByID (cascadeDeleteDepartment wStore "d1").1 "d1"
      = .error RepoErr.notFound :=
  cascade_delete_completeness wStore "d1" ⟨"d1", "Engineering"⟩
    (by decide) (by decide)

/-- C3: The employee Create handler rejects a request whose `department_id`
does not identify an existing department with the caller-visible
"invalid department" failure, and performs no save: the store is returned
unchanged. -/
theorem employee_create_referential_gate (s : InMemoryStore)
    (req : CreateEmployeeRequest) (newID : String)
    (habsent : s.departments.find? (fun x => x.id == req.departmentID) = none) :
    employeeHandlerCreate memRepoOps s req newID
      = (s, .jsonError 400 "Invalid department ID") := by
  unfold employeeHandlerCreate
  rw [show memRepoOps.deptFindByID = memDeptFindByID from rfl]
  unfold memDeptFindByID
  rw [habsent]

/-- Witness for C3: creating an employee against the unknown department
"d9" answers 400 and leaves the store untouched. -/
theorem employee_create_referential_gate_witness :
    employeeHandlerCreate memRepoOps wStore
        ⟨"Dave", "dave@example.com", "d9"⟩ "e4"
      = (wStore, .jsonError 400 "Invalid department ID") :=
  employee_create_referential_gate wStore ⟨"Dave", "dave@example.com", "d9"⟩
    "e4" (by decide)

/-- Looking up the key of a freshly upserted record finds that record. -/
theorem find?_upsert {α : Type} (key : α → String) (l : List α) (a : α) :
    (l.filter (fun x => !(key x == key a)) ++ [a]).find?
        (fun x => key x == key a) = some a := by
  rw [List.find?_append]
  have h1 : (l.filter (fun x => !(key x == key a))).find?
      (fun x => key x == key a) = none := by
    rw [List.find?_eq_none]
    intro x hx
    have h2 := (List.mem_filter.mp hx).2
    rw [Bool.not_eq_true'] at h2
    simp [h2]
  rw [h1]
  simp [List.find?]

/-- C10: The in-memory `Save` operations never return an error: for every
store state and record they succeed unconditionally; a record with the same
id is silently overwritten (lookup afterwards yields the new record), and
records with other ids are untouched - no duplicate-id and no
duplicate-email check is performed anywhere. -/
theorem inmemory_save_unconditional_upsert (s : InMemoryStore)
    (dept : Department) (emp : Employee) :
    (memDeptSave s dept).2 = none
    ∧ (memEmpSave s emp).2 = none
    ∧ memDeptFindByID (memDeptSave s dept).1 dept.id = .ok dept
    ∧ memEmpFindByID (memEmpSave s emp).1 emp.id = .ok emp
    ∧ ((memEmpSave s emp).1).employees.filter (fun x => !(x.id == emp.id))
        = s.employees.filter (fun x => !(x.id == emp.id)) := by
  refine ⟨rfl, rfl, ?_, ?_, ?_⟩
  · unfold memDeptFindByID memDeptSave
    rw [find?_upsert Department.id s.departments dept]
  · unfold memEmpFindByID memEmpSave
    rw [find?_upsert Employee.id s.employees emp]
  · unfold memEmpSave
    rw [List.filter_append, List.filter_filter]
    have h1 : ([emp].filter (fun x => !(x.id == emp.id))) = [] := by
      simp
    rw [h1, List.append_nil]
    apply List.filter_congr
    intro e _
    cases he : e.id == emp.id <;> simp [he]

/-- Counterexample to C4: in the in-memory repository implementation, two
employee creations with the same email but different ids BOTH succeed - the
second does not fail with a Conflict kind - so the unique-email constraint is
not surfaced by every repository implementation. -/
theorem employee_email_conflict_counterexample :
    (memEmpSave { departments := [⟨"d1", "Engineering"⟩], employees := [] }
        ⟨"e1", "Alice", "dup@example.com", "d1"⟩).2 = none
    ∧ (memEmpSave
        (memEmpSave { departments := [⟨"d1", "Engineering"⟩], employees := [] }
          ⟨"e1", "Alice", "dup@example.com", "d1"⟩).1
        ⟨"e2", "Bob", "dup@example.com", "d1"⟩).2 = none
    ∧ (memEmpSave
        (memEmpSave { departments := [⟨"d1", "Engineering"⟩], employees := [] }
          ⟨"e1", "Alice", "dup@example.com", "d1"⟩).1
        ⟨"e2", "Bob", "dup@example.com", "d1"⟩).1.employees
      = [⟨"e1", "Alice", "dup@example.com", "d1"⟩,
         ⟨"e2", "Bob", "dup@example.com", "d1"⟩] := by
  refine ⟨rfl, rfl, ?_⟩
  decide

/-- C4 (amended): the unique-email constraint lives in the persistent store
(SQL UNIQUE / ent Unique): there the second Save with a duplicate email
fails with the repository's wrapped store error (the code has no dedicated
Conflict kind), while the in-memory implementation performs no email
uniqueness check and both creations succeed. -/
theorem email_uniqueness_is_store_level :
    (∀ (s : InMemoryStore) (e1 e2 : Employee), e1.email = e2.email →
      (memEmpSave s e1).2 = none
      ∧ (memEmpSave (memEmpSave s e1).1 e2).2 = none)
    ∧ (∀ (es : EntStore) (e1 e2 : Employee),
        wellFormedUUID e1.id = true →
        wellFormedUUID e1.departmentID = true →
        wellFormedUUID e2.id = true →
        wellFormedUUID e2.departmentID = true →
        es.departments.any (fun r => r.id == e1.departmentID) = true →
        es.employees.any (fun r => r.id == e1.id) = false →
        es.employees.any (fun r => r.email == e1.email) = false →
        e2.email = e1.email →
        (entEmpSave es e1).2 = none
        ∧ (entEmpSave (entEmpSave es e1).1 e2).2
          = some (.store "failed to save employee")) := by
  constructor
  · intro s e1 e2 _
    exact ⟨rfl, rfl⟩
  · intro es e1 e2 h1 h2 h3 h4 hdept hidfresh hemailfresh hemail
    have hsave : entEmpSave es e1
        = ({ es with
             employees := es.employees ++ [⟨e1.id, e1.name, e1.email, e1.departmentID⟩] },
           none) := by
      unfold entEmpSave uuidParse
      rw [h1, h2]
      simp only [if_true, hidfresh, hemailfresh, hdept, Bool.false_eq_true,
        if_false, Bool.not_true, Bool.not_false]
    refine ⟨by rw [hsave], ?_⟩
    rw [hsave]
    unfold entEmpSave uuidParse
    rw [h3, h4]
    simp only [if_true]
    cases hid2 : (es.employees
        ++ [(⟨e1.id, e1.name, e1.email, e1.departmentID⟩ : Employee)]).any
          (fun r => r.id == e2.id)
    · have hmail2 : (es.employees
          ++ [(⟨e1.id, e1.name, e1.email, e1.departmentID⟩ : Employee)]).any
            (fun r => r.email == e2.email) = true := by
        rw [List.any_append]
        have : (e1.email == e2.email) = true := by simp [hemail]
        simp [List.any, this]
      simp [hid2, hmail2]
    · simp [hid2]

/-- Witness for the amended C4 at a concrete ent store and concrete pair of
employees sharing an email. -/
theorem email_uniqueness_is_store_level_witness :
    (entEmpSave entBase
        ⟨"22222222-2222-2222-2222-222222222222", "Alice", "dup@example.com",
         "11111111-1111-1111-1111-111111111111"⟩).2 = none
    ∧ (entEmpSave
        (entEmpSave entBase
          ⟨"22222222-2222-2222-2222-222222222222", "Alice", "dup@example.com",
           "11111111-1111-1111-1111-111111111111"⟩).1
        ⟨"33333333-3333-3333-3333-333333333333", "Bob", "dup@example.com",
         "11111111-1111-1111-1111-111111111111"⟩).2
      = some (.store "failed to save employee") :=
  email_uniqueness_is_store_level.2 entBase
    ⟨"22222222-2222-2222-2222-222222222222", "Alice", "dup@example.com",
     "11111111-1111-1111-1111-111111111111"⟩
    ⟨"33333333-3333-3333-3333-333333333333", "Bob", "dup@example.com",
     "11111111-1111-1111-1111-111111111111"⟩
    (by decide) (by decide) (by decide) (by decide)
    (by decide) (by decide) (by decide) rfl

theorem domainPartOk_iff (r : List Char) :
    domainPartOk r = true ↔
      ∃ d t : List Char, r = d ++ '.' :: t ∧ d ≠ [] ∧ d.all domainChar = true ∧
        2 ≤ t.length ∧ t.all Char.isAlpha = true := by
  unfold domainPartOk
  rw [List.any_eq_true]
  constructor
  · rintro ⟨j, hjmem, hpred⟩
    have hj : j < r.length := List.mem_range.mp hjmem
    simp only [Bool.and_eq_true, beq_iff_eq, decide_eq_true_eq] at hpred
    obtain ⟨⟨⟨hdot, hpos⟩, hdc⟩, hlen, halpha⟩ := hpred
    refine ⟨r.take j, r.drop (j + 1), ?_, ?_, hdc, hlen, halpha⟩
    · have hget : r[j] = '.' := by
        have h2 := List.getElem?_eq_getElem hj
        rw [h2] at hdot
        exact Option.some.inj hdot
      calc r = r.take j ++ r.drop j := (List.take_append_drop j r).symm
        _ = r.take j ++ '.' :: r.drop (j + 1) := by
              rw [List.drop_eq_getElem_cons hj, hget]
    · apply List.ne_nil_of_length_pos
      rw [List.length_take]
      omega
  · rintro ⟨d, t, hr, hdne, hdc, hlen, halpha⟩
    refine ⟨d.length, ?_, ?_⟩
    · apply List.mem_range.mpr
      rw [hr]
      simp
    · have hdot : r[d.length]? = some '.' := by
        rw [hr, List.getElem?_append_right (Nat.le_refl d.length)]
        simp
      have htake : r.take d.length = d := by
        rw [hr]
        exact List.take_left d ('.' :: t)
      have hdrop : r.drop (d.length + 1) = t := by
        rw [hr, show d ++ '.' :: t = (d ++ ['.']) ++ t by simp,
            show d.length + 1 = (d ++ ['.']).length by simp]
        exact List.drop_left (d ++ ['.']) t
      have hpos : 0 < d.length := List.length_pos.mpr hdne
      simp only [Bool.and_eq_true, beq_iff_eq, decide_eq_true_eq]
      refine ⟨⟨⟨hdot, hpos⟩, ?_⟩, ?_, ?_⟩
      · rw [htake]
        exact hdc
      · rw [hdrop]
        exact hlen
      · rw [hdrop]
        exact halpha

theorem isValidEmail_iff (s : String) :
    isValidEmail s = true ↔
      ∃ l d t : List Char,
        s.data = l ++ '@' :: (d ++ '.' :: t) ∧
        l ≠ [] ∧ l.all localChar = true ∧
        d ≠ [] ∧ d.all domainChar = true ∧
        2 ≤ t.length ∧ t.all Char.isAlpha = true := by
  unfold isValidEmail
  rw [List.any_eq_true]
  constructor
  · rintro ⟨i, himem, hpred⟩
    have hi : i < s.data.length := List.mem_range.mp himem
    simp only [Bool.and_eq_true, beq_iff_eq, decide_eq_true_eq] at hpred
    obtain ⟨⟨⟨hat, hpos⟩, hlc⟩, hdom⟩ := hpred
    obtain ⟨d, t, hr, hdne, hdc, hlen, halpha⟩ := (domainPartOk_iff _).mp hdom
    refine ⟨s.data.take i, d, t, ?_, ?_, hlc, hdne, hdc, hlen, halpha⟩
    · have hget : s.data[i] = '@' := by
        have h2 := List.getElem?_eq_getElem hi
        rw [h2] at hat
        exact Option.some.inj hat
      calc s.data = s.data.take i ++ s.data.drop i := (List.take_append_drop i s.data).symm
        _ = s.data.take i ++ '@' :: s.data.drop (i + 1) := by
              rw [List.drop_eq_getElem_cons hi, hget]
        _ = s.data.take i ++ '@' :: (d ++ '.' :: t) := by rw [hr]
    · apply List.ne_nil_of_length_pos
      rw [List.length_take]
      omega
  · rintro ⟨l, d, t, hs, hlne, hlc, hdne, hdc, hlen, halpha⟩
    refine ⟨l.length, ?_, ?_⟩
    · apply List.mem_range.mpr
      rw [hs]
      simp
    · have hat : s.data[l.length]? = some '@' := by
        rw [hs, List.getElem?_append_right (Nat.le_refl l.length)]
        simp
      have htake : s.data.take l.length = l := by
        rw [hs]
        exact List.take_left l ('@' :: (d ++ '.' :: t))
      have hdrop : s.data.drop (l.length + 1) = d ++ '.' :: t := by
        rw [hs, show l ++ '@' :: (d ++ '.' :: t) = (l ++ ['@']) ++ (d ++ '.' :: t) by simp,
            show l.length + 1 = (l ++ ['@']).length by simp]
        exact List.drop_left (l ++ ['@']) (d ++ '.' :: t)
      have hpos : 0 < l.length := List.length_pos.mpr hlne
      simp only [Bool.and_eq_true, beq_iff_eq, decide_eq_true_eq]
      refine ⟨⟨⟨hat, hpos⟩, ?_⟩, ?_⟩
      · rw [htake]
        exact hlc
      · rw [hdrop]
        exact (domainPartOk_iff _).mpr ⟨d, t, rfl, hdne, hdc, hlen, halpha⟩

/-- C5: The email validator accepts exactly the language of the source's
regular expression - a non-empty local part over `[a-zA-Z0-9._%+-]`, an `@`,
a domain containing at least one dot whose final label is at least two
letters - and in particular validates/rejects the spec's representative
table (empty string, multiple `@`, embedded whitespace, missing local or
domain part, one-letter TLD). -/
theorem email_validator_matches_spec :
    (∀ s : String, isValidEmail s = true ↔
      ∃ l d t : List Char,
        s.data = l ++ '@' :: (d ++ '.' :: t) ∧
        l ≠ [] ∧ l.all localChar = true ∧
        d ≠ [] ∧ d.all domainChar = true ∧
        2 ≤ t.length ∧ t.all Char.isAlpha = true)
    ∧ isValidEmail "user@example.com" = true
    ∧ isValidEmail "user@example.c" = false
    ∧ isValidEmail "user@@example.com" = false
    ∧ isValidEmail "user @example.com" = false
    ∧ isValidEmail "" = false
    ∧ isValidEmail "@example.com" = false
    ∧ isValidEmail "user@" = false :=
  ⟨isValidEmail_iff, by decide, by decide, by decide, by decide, by decide,
   by decide, by decide⟩

/-- Witness for C5: the characterization instantiated at a concrete accepted
address. -/
theorem email_validator_matches_spec_witness :
    isValidEmail "ab@cd.ef" = true :=
  (email_validator_matches_spec.1 "ab@cd.ef").mpr
    ⟨['a', 'b'], ['c', 'd'], ['e', 'f'], by decide, by decide, by decide,
     by decide, by decide, by decide, by decide⟩

theorem charListLe_trans : ∀ xs ys zs : List Char,
    charListLe xs ys = true → charListLe ys zs = true →
    charListLe xs zs = true := by
  intro xs
  induction xs with
  | nil =>
    intro ys zs _ _
    rfl
  | cons x xs ih =>
    intro ys zs h1 h2
    cases ys with
    | nil => simp [charListLe] at h1
    | cons y ys =>
      cases zs with
      | nil => simp [charListLe] at h2
      | cons z zs =>
        simp only [charListLe] at h1 h2 ⊢
        by_cases hxy : x = y
        · subst hxy
          by_cases hyz : x = z
          · subst hyz
            rw [if_pos rfl] at h1 h2 ⊢
            exact ih ys zs h1 h2
          · rw [if_pos rfl] at h1
            rw [if_neg hyz] at h2 ⊢
            exact h2
        · rw [if_neg hxy] at h1
          have hlt1 : x < y := of_decide_eq_true h1
          by_cases hyz : y = z
          · subst hyz
            rw [if_neg hxy]
            exact h1
          · rw [if_neg hyz] at h2
            have hlt2 : y < z := of_decide_eq_true h2
            have hlt : x < z := lt_trans hlt1 hlt2
            rw [if_neg (ne_of_lt hlt)]
            exact decide_eq_true hlt

theorem charListLe_total : ∀ xs ys : List Char,
    charListLe xs ys = true ∨ charListLe ys xs = true := by
  intro xs
  induction xs with
  | nil =>
    intro ys
    exact Or.inl rfl
  | cons x xs ih =>
    intro ys
    cases ys with
    | nil => exact Or.inr rfl
    | cons y ys =>
      simp only [charListLe]
      by_cases hxy : x = y
      · subst hxy
        rw [if_pos rfl, if_pos rfl]
        exact ih ys
      · have hyx : ¬ y = x := fun h => hxy h.symm
        rw [if_neg hxy, if_neg hyx]
        rcases lt_trichotomy x y with hlt | heq | hgt
        · exact Or.inl (decide_eq_true hlt)
        · exact absurd heq hxy
        · exact Or.inr (decide_eq_true hgt)

theorem strLe_trans (a b c : String) (h1 : strLe a b = true)
    (h2 : strLe b c = true) : strLe a c = true :=
  charListLe_trans a.data b.data c.data h1 h2

theorem strLe_total (a b : String) : strLe a b = true ∨ strLe b a = true :=
  charListLe_total a.data b.data

/-- Counterexample to C6: the EntGo `FindAll` applies no ordering - on a
store where "Sales" was inserted before "Engineering" it returns the rows in
table order, and that order is not ordered by name ("Sales" does not come
at or before "Engineering"). -/
theorem find_all_unordered_counterexample :
    entDeptFindAll entTwoDepts
      = .ok (GoSlice.goMake
          [⟨"11111111-1111-1111-1111-111111111111", "Sales"⟩,
           ⟨"22222222-2222-2222-2222-222222222222", "Engineering"⟩])
    ∧ strLe "Sales" "Engineering" = false := by
  constructor
  · decide
  · decide

/-- C6 (amended): only the PostgreSQL implementation orders query results by
name (`ORDER BY name`): its `FindAll` and `FindByDepartmentID` return a
name-sorted permutation of the matching rows.  The EntGo implementation
returns rows in table order with no sorting (and the in-memory one in map
iteration order). -/
theorem postgres_results_ordered_by_name :
    (∀ s : PgStore, ∃ rows : List Department,
        pgDeptFindAll s = .ok (GoSlice.goMake rows)
        ∧ List.Sorted (fun a b => strLe a.name b.name = true) rows
        ∧ rows.Perm s.departments)
    ∧ (∀ (s : PgStore) (deptID : String), ∃ rows : List Employee,
        pgEmpFindByDepartmentID s deptID = .ok (GoSlice.goMake rows)
        ∧ List.Sorted (fun a b => strLe a.name b.name = true) rows
        ∧ rows.Perm (s.employees.filter (fun e => e.departmentID == deptID)))
    ∧ (∀ es : EntStore,
        entDeptFindAll es
          = .ok (GoSlice.goMake
              (es.departments.map (fun r => ⟨r.id, r.name⟩)))) := by
  haveI htotD : IsTotal Department (fun a b => strLe a.name b.name = true) :=
    ⟨fun a b => strLe_total a.name b.name⟩
  haveI htrD : IsTrans Department (fun a b => strLe a.name b.name = true) :=
    ⟨fun a b c => strLe_trans a.name b.name c.name⟩
  haveI htotE : IsTotal Employee (fun a b => strLe a.name b.name = true) :=
    ⟨fun a b => strLe_total a.name b.name⟩
  haveI htrE : IsTrans Employee (fun a b => strLe a.name b.name = true) :=
    ⟨fun a b c => strLe_trans a.name b.name c.name⟩
  refine ⟨?_, ?_, ?_⟩
  · intro s
    refine ⟨List.insertionSort (fun a b => strLe a.name b.name = true) s.departments,
      ?_, List.sorted_insertionSort _ _, List.perm_insertionSort _ _⟩
    cases hne : (List.insertionSort (fun a b => strLe a.name b.name = true)
        s.departments).isEmpty
    · simp [pgDeptFindAll, goslice_foldl_push, hne, GoSlice.goMake,
        GoSlice.toList, GoSlice.goNil]
    · have hnil := List.isEmpty_iff.mp hne
      simp [pgDeptFindAll, goslice_foldl_push, hne, hnil, GoSlice.goMake,
        GoSlice.goNil]
  · intro s deptID
    refine ⟨List.insertionSort (fun a b => strLe a.name b.name = true)
        (s.employees.filter (fun e => e.departmentID == deptID)),
      ?_, List.sorted_insertionSort _ _, List.perm_insertionSort _ _⟩
    cases hne : (List.insertionSort (fun a b => strLe a.name b.name = true)
        (s.employees.filter (fun e => e.departmentID == deptID))).isEmpty
    · simp [pgEmpFindByDepartmentID, goslice_foldl_push, hne, GoSlice.goMake,
        GoSlice.toList, GoSlice.goNil]
    · have hnil := List.isEmpty_iff.mp hne
      simp [pgEmpFindByDepartmentID, goslice_foldl_push, hne, hnil, GoSlice.goMake,
        GoSlice.goNil]
  · intro es
    rfl

/-- Counterexample to C7: in the in-memory implementation,
`FindByDepartmentID` on a state where no rows match returns the nil slice
(`var result []*models.Employee` is never appended to), i.e. a null/absent
value rather than an empty sequence value. -/
theorem empty_result_nil_slice_counterexample :
    memEmpFindByDepartmentID
        { departments := [⟨"d1", "Engineering"⟩],
          employees := [⟨"e3", "Carol", "carol@example.com", "d2"⟩] } "d1"
      = .ok GoSlice.goNil := by decide

/-- C7 (amended): on a state with no matching rows, `FindAll` returns an
empty non-nil slice in every implementation, and the PostgreSQL and EntGo
`FindByDepartmentID` do too (the Postgres code patches the nil slice, the
Ent code allocates with `make`); but the in-memory `FindByDepartmentID`
returns the nil slice. -/
theorem empty_result_shapes :
    (∀ s : InMemoryStore, s.departments = [] →
      memDeptFindAll s = .ok (GoSlice.goMake []))
    ∧ (∀ s : InMemoryStore, s.employees = [] →
      memEmpFindAll s = .ok (GoSlice.goMake []))
    ∧ (∀ s : PgStore, s.departments = [] →
      pgDeptFindAll s = .ok (GoSlice.goMake []))
    ∧ (∀ (s : PgStore) (deptID : String),
        s.employees.filter (fun e => e.departmentID == deptID) = [] →
        pgEmpFindByDepartmentID s deptID = .ok (GoSlice.goMake []))
    ∧ (∀ es : EntStore, es.departments = [] →
        entDeptFindAll es = .ok (GoSlice.goMake []))
    ∧ (∀ (s : EntStore) (deptID : String),
        wellFormedUUID deptID = true →
        s.employees.filter (fun e => e.departmentID == deptID) = [] →
        entEmpFindByDepartmentID s deptID = .ok (GoSlice.goMake []))
    ∧ (∀ (s : InMemoryStore) (deptID : String),
        s.employees.filter (fun e => e.departmentID == deptID) = [] →
        memEmpFindByDepartmentID s deptID = .ok GoSlice.goNil) := by
  refine ⟨?_, ?_, ?_, ?_, ?_, ?_, ?_⟩
  · intro s h
    unfold memDeptFindAll
    rw [h]
    rfl
  · intro s h
    unfold memEmpFindAll
    rw [h]
    rfl
  · intro s h
    simp [pgDeptFindAll, h, List.insertionSort, GoSlice.goMake, GoSlice.goNil]
  · intro s deptID h
    simp [pgEmpFindByDepartmentID, h, List.insertionSort, GoSlice.goMake,
      GoSlice.goNil]
  · intro es h
    simp [entDeptFindAll, h, GoSlice.goMake]
  · intro s deptID hwf h
    unfold entEmpFindByDepartmentID uuidParse
    rw [hwf]
    simp [h, GoSlice.goMake]
  · intro s deptID h
    rw [memEmpFindByDepartmentID_toList, h]
    rfl

/-- Witness for the amended C7: the Postgres `FindAll` on the empty store is
a non-nil empty slice while the in-memory `FindByDepartmentID` on the same
kind of state is the nil slice. -/
theorem empty_result_shapes_witness :
    pgDeptFindAll { departments := [], employees := [] }
      = .ok (GoSlice.goMake [])
    ∧ memEmpFindByDepartmentID { departments := [], employees := [] } "d1"
      = .ok GoSlice.goNil :=
  ⟨empty_result_shapes.2.2.1 { departments := [], employees := [] } rfl,
   empty_result_shapes.2.2.2.2.2.2 { departments := [], employees := [] } "d1" rfl⟩

/-- Counterexample to C8: in the EntGo implementation `Save` is insert-only,
so for a department whose (well-formed) id already exists, `Save(d)` fails -
the save-then-find round trip does not succeed - and `FindByID` still
returns the previously stored record rather than `d`. -/
theorem department_roundtrip_counterexample :
    wellFormedUUID "44444444-4444-4444-4444-444444444444" = true
    ∧ (entDeptSave entOneDept
        ⟨"44444444-4444-4444-4444-444444444444", "Beta"⟩).2
      = some (.store "failed to save department")
    ∧ entDeptFindByID entOneDept "44444444-4444-4444-4444-444444444444"
      = .ok ⟨"44444444-4444-4444-4444-444444444444", "Alpha"⟩ := by
  refine ⟨by decide, by decide, by decide⟩

/-- C8 (amended): `Save(d)` followed by `FindByID(d.id)` returns a record
equal to `d` in id and name; unconditionally in the in-memory
implementation (whose Save is an upsert), and in the insert-only EntGo
implementation provided `d.id` is well-formed and no row with that id
exists yet. -/
theorem department_roundtrip :
    (∀ (s : InMemoryStore) (d : Department),
        (memDeptSave s d).2 = none
        ∧ memDeptFindByID (memDeptSave s d).1 d.id = .ok d)
    ∧ (∀ (es : EntStore) (d : Department),
        wellFormedUUID d.id = true →
        es.departments.any (fun r => r.id == d.id) = false →
        (entDeptSave es d).2 = none
        ∧ entDeptFindByID (entDeptSave es d).1 d.id = .ok d) := by
  constructor
  · intro s d
    refine ⟨rfl, ?_⟩
    unfold memDeptFindByID memDeptSave
    rw [find?_upsert Department.id s.departments d]
  · intro es d hwf hfresh
    have hsave : entDeptSave es d
        = ({ es with departments := es.departments ++ [⟨d.id, d.name⟩] }, none) := by
      unfold entDeptSave uuidParse
      rw [hwf]
      simp only [if_true, hfresh, Bool.false_eq_true, if_false]
    refine ⟨by rw [hsave], ?_⟩
    rw [hsave]
    unfold entDeptFindByID uuidParse
    rw [hwf]
    simp only [if_true]
    have hnone : es.departments.find? (fun r => r.id == d.id) = none := by
      rw [List.find?_eq_none]
      intro x hx
      have := List.any_eq_false.mp hfresh x hx
      simpa using this
    rw [List.find?_append, hnone]
    simp [List.find?]

/-- Witness for the amended C8 on the empty ent store and a fresh
department. -/
theorem department_roundtrip_witness :
    (entDeptSave { departments := [], employees := [] }
        ⟨"55555555-5555-5555-5555-555555555555", "Gamma"⟩).2 = none
    ∧ entDeptFindByID
        (entDeptSave { departments := [], employees := [] }
          ⟨"55555555-5555-5555-5555-555555555555", "Gamma"⟩).1
        "55555555-5555-5555-5555-555555555555"
      = .ok ⟨"55555555-5555-5555-5555-555555555555", "Gamma"⟩ :=
  department_roundtrip.2 { departments := [], employees := [] }
    ⟨"55555555-5555-5555-5555-555555555555", "Gamma"⟩ (by decide) (by decide)

/-- Counterexample to C9: in the PostgreSQL implementation, the repository
`Delete` issues a plain `DELETE FROM departments`, but the store schema's
`fk_department` constraint is `ON DELETE CASCADE`: the referencing employee
row is removed as well, so the employee collection does not stay
unchanged. -/
theorem repo_delete_not_frame_counterexample :
    (pgDeptDelete pgOneDeptOneEmp "d1").1.employees = []
    ∧ pgOneDeptOneEmp.employees ≠ [] := by
  refine ⟨by decide, by decide⟩

/-- C9 (amended): the in-memory repository `Delete` removes only the
department row and leaves the employee collection unchanged (orphans
remain); the EntGo-level delete also never touches employees (it refuses to
delete a referenced department); but the PostgreSQL implementation's delete
cascades at the store level: every employee referencing the deleted
department is removed by the database's foreign key. -/
theorem repo_delete_frame :
    (∀ (s : InMemoryStore) (id : String),
        ((memDeptDelete s id).1).employees = s.employees)
    ∧ (∀ (es : EntStore) (id : String),
        ((entDeptDelete es id).1).employees = es.employees)
    ∧ (∀ (s : PgStore) (id : String),
        s.departments.any (fun d => d.id == id) = true →
        pgDeptDelete s id
          = ({ departments := s.departments.filter (fun d => !(d.id == id)),
               employees := s.employees.filter (fun e => !(e.departmentID == id)) },
             none)) := by
  refine ⟨?_, ?_, ?_⟩
  · intro s id
    unfold memDeptDelete
    split <;> rfl
  · intro es id
    unfold entDeptDelete
    cases uuidParse id
    · rfl
    · simp only []
      split <;> try rfl
      split <;> rfl
  · intro s id h
    unfold pgDeptDelete
    rw [h]
    simp

/-- Witness for the amended C9: deleting the department at a concrete
Postgres store removes the department row and, via the store's cascade, the
referencing employee. -/
theorem repo_delete_frame_witness :
    pgDeptDelete pgOneDeptOneEmp "d1"
      = ({ departments := [], employees := [] }, none) := by
  have h := repo_delete_frame.2.2 pgOneDeptOneEmp "d1" (by decide)
  rw [h]
  decide
